import Mathlib

/-!
Verification of the cache-migration utility in
src/batch/migrate_done_to_cache.py.

The persisted completion cache is a JSON object, i.e. a finite mapping with
string keys and insertion order; we embed it as an association list
`List (String × V)` whose keys are kept unique by the dict operations
(assignment `d[k] = v` updates in place when the key exists, otherwise
appends).  Filesystem effects (file existence, parse failure, directory
listing, write failure) are made explicit as data, and functions that may
call `sys.exit(code)` return `Except Nat _` with the exit code as error.
-/

namespace MigrateDone

/-! ### Key normalization (load_completion_cache, lines 44-47)

Python: `basename = os.path.basename(key.replace('\\', '/'))`.
`str.replace('\\', '/')` maps every backslash to a forward slash;
POSIX `os.path.basename` returns the text after the last `'/'`. -/

/-- One character of Python `key.replace('\\', '/')`. -/
def sepFix (c : Char) : Char := if c = '\\' then '/' else c

/-- Python `key.replace('\\', '/')` on the character list of the key. -/
def replaceSeps (s : String) : String := String.mk (s.data.map sepFix)

/-- POSIX `os.path.basename` on a character list: the suffix after the last
forward slash (empty when the list ends in a slash). -/
def basenameChars : List Char → List Char
  | [] => []
  | c :: rest =>
    if '/' ∈ rest then basenameChars rest
    else if c = '/' then rest
    else c :: rest

/-- Python `os.path.basename(s)` for an all-forward-slash path. -/
def basename (s : String) : String := String.mk (basenameChars s.data)

/-- The full key canonicalization of `load_completion_cache`:
`os.path.basename(key.replace('\\', '/'))`. -/
def normKey (key : String) : String := basename (replaceSeps key)

/-- A key contains a path separator (`'/'` or `'\\'`). -/
def hasSep (s : String) : Bool := s.data.any (fun c => c == '/' || c == '\\')

/-- A key ends in a path separator. -/
def endsWithSep (s : String) : Bool :=
  match s.data.getLast? with
  | some c => c == '/' || c == '\\'
  | none => false

/-! ### Dict embedding -/

/-- The key list of a cache (`dict` keys, in insertion order). -/
def keys {V : Type} (d : List (String × V)) : List String := d.map Prod.fst

/-- Dict read `d[k]`: the value at the first (in a well-formed dict, only)
occurrence of key `k`. -/
def lookup {V : Type} (k : String) : List (String × V) → Option V
  | [] => none
  | p :: rest => if p.1 = k then some p.2 else lookup k rest

/-- Dict assignment `d[k] = v`: update in place when the key exists,
otherwise append a new entry. -/
def dictInsert {V : Type} (d : List (String × V)) (k : String) (v : V) :
    List (String × V) :=
  if k ∈ keys d then d.map (fun p => if p.1 = k then (k, v) else p)
  else d ++ [(k, v)]

/-! ### load_completion_cache (lines 32-51) -/

/-- One iteration of the normalization loop:
`normalized_cache[os.path.basename(key.replace('\\', '/'))] = value`. -/
def normStep {V : Type} (acc : List (String × V)) (kv : String × V) :
    List (String × V) :=
  dictInsert acc (normKey kv.1) kv.2

/-- The loop of `load_completion_cache` that rebuilds `normalized_cache`
from the raw parsed entries, in iteration order. -/
def normalize_cache {V : Type} (raw : List (String × V)) : List (String × V) :=
  raw.foldl normStep []

/-- State of the persisted cache file as `load_completion_cache` finds it:
absent, present but not parsable as JSON, or parsed to an entry list. -/
inductive CacheFileState (V : Type) where
  | missing : CacheFileState V
  | unparsable : CacheFileState V
  | parsed (entries : List (String × V)) : CacheFileState V

/-- `load_completion_cache(output_dir)`: returns the normalized cache plus a
flag recording whether the corruption warning was printed.  The function
never calls `sys.exit` (its only failure path is the `except` clause that
returns `{}`), hence it always returns `.ok`. -/
def load_completion_cache {V : Type} :
    CacheFileState V → Except Nat (List (String × V) × Bool)
  | .missing => .ok ([], false)
  | .unparsable => .ok ([], true)
  | .parsed raw => .ok (normalize_cache raw, false)

/-! ### merge_caches (lines 108-125) -/

/-- One iteration of the merge loop: skip and count keys already present,
append and count new keys. -/
def mergeStep {V : Type} (acc : List (String × V) × Nat × Nat)
    (kv : String × V) : List (String × V) × Nat × Nat :=
  if kv.1 ∈ keys acc.1 then (acc.1, acc.2.1, acc.2.2 + 1)
  else (acc.1 ++ [kv], acc.2.1 + 1, acc.2.2)

/-- `merge_caches(existing_cache, new_entries)`: returns
`(merged, added, already_exists)`. -/
def merge_caches {V : Type} (existing_cache new_entries : List (String × V)) :
    List (String × V) × Nat × Nat :=
  new_entries.foldl mergeStep (existing_cache, 0, 0)

/-! ### save_completion_cache (lines 54-63)

`json.dump(cache, f, indent=2, sort_keys=True)`: entries are written with
keys in sorted order, two-space indentation, one `"key": value` line per
entry.  A failed write prints an error and calls `sys.exit(1)`. -/

/-- Key ordering used by `sort_keys=True`. -/
def keyLe (a b : String × Bool) : Bool := decide (a.1 ≤ b.1)

/-- The entries in the order `json.dump(..., sort_keys=True)` writes them. -/
def sortEntries (cache : List (String × Bool)) : List (String × Bool) :=
  cache.mergeSort keyLe

def quoteStr : String := "\""
def colonSp : String := ": "
def indentStr : String := "  "
def entrySep : String := ",\n"
def openBrace : String := "\x7b\n"
def closeBrace : String := "\n\x7d"
def emptyObj : String := "\x7b\x7d"

/-- One serialized entry, `"key": true` / `"key": false`. -/
def renderEntry (kv : String × Bool) : String :=
  quoteStr ++ kv.1 ++ quoteStr ++ colonSp ++ (if kv.2 then ("true" : String) else ("false" : String))

/-- The serialized JSON text produced by
`json.dump(cache, f, indent=2, sort_keys=True)` (string escaping of keys is
not modelled; keys here are job-directory names). -/
def serializeCache (cache : List (String × Bool)) : String :=
  let sorted := sortEntries cache
  if sorted.isEmpty then emptyObj
  else
    openBrace
      ++ String.intercalate entrySep (sorted.map (fun kv => indentStr ++ renderEntry kv))
      ++ closeBrace

/-- `save_completion_cache(output_dir, cache)`: writes the serialized cache,
or prints an error and exits with status 1 when the write fails. -/
def save_completion_cache (writeOk : Bool) (cache : List (String × Bool)) :
    Except Nat String :=
  if writeOk then .ok (serializeCache cache) else .error 1

/-! ### find_completed_jobs (lines 66-106) and main (lines 128-175) -/

/-- One immediate entry of the output directory as `os.scandir` reports it:
its name, whether it is a directory, and whether `glob` finds at least one
file matching `*.done.txt` inside it. -/
structure DirEntry where
  name : String
  isDir : Bool
  hasDoneFile : Bool
deriving DecidableEq

/-- Python `entry.name.startswith('.')`: the first character is a dot. -/
def startsWithDot (s : String) : Bool :=
  match s.data.head? with
  | some c => c == '.'
  | none => false

/-- The observable filesystem state a run of the script interacts with. -/
structure FS where
  rootExists : Bool
  scanOk : Bool
  entries : List DirEntry
  cacheState : CacheFileState Bool
  writeOk : Bool

/-- `find_completed_jobs(output_dir)`: exits with status 1 when the root
directory is missing or cannot be scanned; otherwise returns
`{jobname: True}` for every non-hidden immediate subdirectory containing a
`*.done.txt` file. -/
def find_completed_jobs (fs : FS) : Except Nat (List (String × Bool)) :=
  if fs.rootExists = false then .error 1
  else if fs.scanOk = false then .error 1
  else
    let subdirs := fs.entries.filter
      (fun e => e.isDir && !(startsWithDot e.name))
    .ok (subdirs.filterMap
      (fun e => if e.hasDoneFile then some (e.name, true) else none))

/-- Outcome of a run of `main`: the process exit status and whether
`save_completion_cache` was invoked (i.e. whether the cache file was
written or modified). -/
structure MainResult where
  exitCode : Nat
  saveInvoked : Bool
deriving DecidableEq

/-- `main()` after argument parsing: load (and normalize) the existing
cache, scan for completed jobs, then save the cleaned cache when the scan
found nothing but the cache is non-empty, save the merged cache when the
scan found jobs, and write nothing when both are empty. -/
def mainRun (fs : FS) : MainResult :=
  match load_completion_cache fs.cacheState with
  | .error code => ⟨code, false⟩
  | .ok (existing_cache, _warned) =>
    match find_completed_jobs fs with
    | .error code => ⟨code, false⟩
    | .ok completed_jobs =>
      if completed_jobs.isEmpty then
        if existing_cache.isEmpty then ⟨0, false⟩
        else
          match save_completion_cache fs.writeOk existing_cache with
          | .ok _ => ⟨0, true⟩
          | .error code => ⟨code, true⟩
      else
        match save_completion_cache fs.writeOk
            (merge_caches existing_cache completed_jobs).1 with
        | .ok _ => ⟨0, true⟩
        | .error code => ⟨code, true⟩

/-- Example filesystem: root exists, one completed job directory, no
persisted cache. -/
def fsScanEx : FS :=
  ⟨true, true, [⟨("jobA" : String), true, true⟩], CacheFileState.missing, true⟩

/-- Example filesystem: the root output directory does not exist. -/
def fsNoRootEx : FS := ⟨false, true, [], CacheFileState.missing, true⟩

/-- Example filesystem: the root exists but `os.scandir` fails. -/
def fsScanFailEx : FS := ⟨true, false, [], CacheFileState.missing, true⟩

/-! ### Helper lemmas: dict operations -/

theorem mem_keys_cons {V : Type} {p : String × V} {d : List (String × V)}
    {k : String} : k ∈ keys (p :: d) ↔ k = p.1 ∨ k ∈ keys d := by
  simp [keys]

theorem keys_append {V : Type} (d t : List (String × V)) :
    keys (d ++ t) = keys d ++ keys t := by
  simp [keys]

theorem lookup_eq_none_iff {V : Type} {k : String} :
    ∀ {d : List (String × V)}, lookup k d = none ↔ k ∉ keys d
  | [] => by simp [lookup, keys]
  | p :: rest => by
    by_cases hp : p.1 = k
    · simp [lookup, hp, mem_keys_cons]
    · have hk : ¬(k = p.1) := fun h => hp h.symm
      simp [lookup, hp, mem_keys_cons, hk, lookup_eq_none_iff]

theorem lookup_append_left {V : Type} (t : List (String × V)) :
    ∀ (d : List (String × V)) (k : String), k ∈ keys d →
      lookup k (d ++ t) = lookup k d
  | [], k, h => by simp [keys] at h
  | p :: rest, k, h => by
    by_cases hp : p.1 = k
    · simp [lookup, hp]
    · rcases mem_keys_cons.mp h with h1 | h1
      · exact absurd h1.symm hp
      · simp [lookup, hp, lookup_append_left t rest k h1]

theorem lookup_cons {V : Type} (p : String × V) (d : List (String × V))
    (k : String) :
    lookup k (p :: d) = if p.1 = k then some p.2 else lookup k d := rfl

theorem lookup_map_update {V : Type} (k : String) (v : V) :
    ∀ (d : List (String × V)), k ∈ keys d →
      lookup k (d.map fun p => if p.1 = k then (k, v) else p) = some v
  | [], h => by simp [keys] at h
  | p :: rest, h => by
    by_cases hp : p.1 = k
    · rw [List.map_cons, if_pos hp, lookup_cons]
      simp
    · rcases mem_keys_cons.mp h with h1 | h1
      · exact absurd h1.symm hp
      · rw [List.map_cons, if_neg hp, lookup_cons, if_neg hp]
        exact lookup_map_update k v rest h1

theorem lookup_append_single {V : Type} (k : String) (v : V) :
    ∀ (d : List (String × V)), k ∉ keys d →
      lookup k (d ++ [(k, v)]) = some v
  | [], _ => by simp [lookup]
  | p :: rest, h => by
    have hp : ¬(p.1 = k) := fun hc => h (mem_keys_cons.mpr (Or.inl hc.symm))
    have hr : k ∉ keys rest := fun hc => h (mem_keys_cons.mpr (Or.inr hc))
    rw [List.cons_append, lookup_cons, if_neg hp]
    exact lookup_append_single k v rest hr

theorem lookup_map_update_ne {V : Type} (k : String) (v : V) (b : String)
    (hne : b ≠ k) :
    ∀ (d : List (String × V)),
      lookup b (d.map fun p => if p.1 = k then (k, v) else p) = lookup b d
  | [] => by simp [lookup]
  | p :: rest => by
    by_cases hp : p.1 = k
    · have h1 : ¬(k = b) := fun hc => hne hc.symm
      have h2 : ¬(p.1 = b) := fun hc => hne (hc.symm.trans hp)
      rw [List.map_cons, if_pos hp, lookup_cons, lookup_cons, if_neg h1,
        if_neg h2]
      exact lookup_map_update_ne k v b hne rest
    · rw [List.map_cons, if_neg hp, lookup_cons, lookup_cons,
        lookup_map_update_ne k v b hne rest]

theorem lookup_append_single_ne {V : Type} (k : String) (v : V) (b : String)
    (hne : b ≠ k) :
    ∀ (d : List (String × V)), lookup b (d ++ [(k, v)]) = lookup b d
  | [] => by
    have h1 : ¬(k = b) := fun hc => hne hc.symm
    simp [lookup, h1]
  | p :: rest => by
    rw [List.cons_append, lookup_cons, lookup_cons,
      lookup_append_single_ne k v b hne rest]

theorem lookup_dictInsert_self {V : Type} (d : List (String × V))
    (k : String) (v : V) : lookup k (dictInsert d k v) = some v := by
  rw [dictInsert]
  by_cases h : k ∈ keys d
  · rw [if_pos h]
    exact lookup_map_update k v d h
  · rw [if_neg h]
    exact lookup_append_single k v d h

theorem lookup_dictInsert_ne {V : Type} (d : List (String × V))
    (k : String) (v : V) (b : String) (hne : b ≠ k) :
    lookup b (dictInsert d k v) = lookup b d := by
  rw [dictInsert]
  by_cases h : k ∈ keys d
  · rw [if_pos h]
    exact lookup_map_update_ne k v b hne d
  · rw [if_neg h]
    exact lookup_append_single_ne k v b hne d

/-! ### Helper lemmas: normalization loop -/

theorem lookup_normalize_foldl {V : Type} (raw : List (String × V)) :
    ∀ (acc : List (String × V)) (b : String),
      lookup b (List.foldl normStep acc raw) =
        match raw.reverse.find? (fun kv => normKey kv.1 == b) with
        | some kv => some kv.2
        | none => lookup b acc := by
  induction raw with
  | nil => intro acc b; rfl
  | cons kv rest ih =>
    intro acc b
    rw [List.foldl_cons, ih, List.reverse_cons, List.find?_append]
    cases hfind : rest.reverse.find? (fun x => normKey x.1 == b) with
    | some kv' => simp [Option.or]
    | none =>
      by_cases hb : normKey kv.1 = b
      · simp [Option.or, List.find?, hb, normStep, lookup_dictInsert_self]
      · have hbeq : (normKey kv.1 == b) = false := by
          simp [hb]
        simp [Option.or, List.find?, hbeq, normStep,
          lookup_dictInsert_ne _ _ _ _ (fun h => hb h.symm)]

/-- The value `load_completion_cache` keeps for a normalized key is the one
of the last raw entry whose key normalizes to it. -/
theorem lookup_normalize {V : Type} (raw : List (String × V)) (b : String) :
    lookup b (normalize_cache raw) =
      (raw.reverse.find? (fun kv => normKey kv.1 == b)).map Prod.snd := by
  rw [normalize_cache, lookup_normalize_foldl]
  cases raw.reverse.find? (fun kv => normKey kv.1 == b) <;> rfl

/-- A string is a key of the normalized cache exactly when some raw entry
normalizes to it. -/
theorem mem_keys_normalize_iff {V : Type} (raw : List (String × V))
    (b : String) :
    b ∈ keys (normalize_cache raw) ↔ ∃ kv, kv ∈ raw ∧ normKey kv.1 = b := by
  have hnone := @lookup_eq_none_iff V b (normalize_cache raw)
  rw [lookup_normalize] at hnone
  constructor
  · intro hmem
    by_contra hnot
    have : raw.reverse.find? (fun kv => normKey kv.1 == b) = none := by
      rw [List.find?_eq_none]
      intro x hx
      simp only [beq_iff_eq]
      exact fun heq => hnot ⟨x, List.mem_reverse.mp hx, heq⟩
    exact (hnone.mp (by rw [this]; rfl)) hmem
  · intro ⟨kv, hmem, hnorm⟩
    by_contra hnot
    have hlook := hnone.mpr hnot
    cases hfind : raw.reverse.find? (fun kv => normKey kv.1 == b) with
    | some x => rw [hfind] at hlook; simp at hlook
    | none =>
      rw [List.find?_eq_none] at hfind
      exact hfind kv (List.mem_reverse.mpr hmem) (by simp [hnorm])

/-! ### Helper lemmas: basenames contain no separators -/

theorem sepFix_ne_backslash (c : Char) : sepFix c ≠ '\\' := by
  rw [sepFix]
  by_cases h : c = '\\'
  · rw [if_pos h]
    decide
  · rw [if_neg h]
    exact h

theorem basenameChars_subset {c : Char} :
    ∀ {l : List Char}, c ∈ basenameChars l → c ∈ l
  | [], h => by simp [basenameChars] at h
  | a :: rest, h => by
    rw [basenameChars] at h
    by_cases h1 : '/' ∈ rest
    · rw [if_pos h1] at h
      exact List.mem_cons_of_mem a (basenameChars_subset h)
    · rw [if_neg h1] at h
      by_cases h2 : a = '/'
      · rw [if_pos h2] at h
        exact List.mem_cons_of_mem a h
      · rw [if_neg h2] at h
        exact h

theorem slash_not_mem_basenameChars :
    ∀ (l : List Char), '/' ∉ basenameChars l
  | [] => by simp [basenameChars]
  | a :: rest => by
    rw [basenameChars]
    by_cases h1 : '/' ∈ rest
    · rw [if_pos h1]
      exact slash_not_mem_basenameChars rest
    · rw [if_neg h1]
      by_cases h2 : a = '/'
      · rw [if_pos h2]
        exact h1
      · rw [if_neg h2]
        intro hmem
        rcases List.mem_cons.mp hmem with hc | hc
        · exact h2 hc.symm
        · exact h1 hc

theorem basenameChars_append_slash :
    ∀ (l : List Char), basenameChars (l ++ ['/']) = []
  | [] => by simp [basenameChars]
  | a :: rest => by
    have h1 : '/' ∈ rest ++ ['/'] := by simp
    rw [List.cons_append, basenameChars, if_pos h1]
    exact basenameChars_append_slash rest

theorem hasSep_normKey (s : String) : hasSep (normKey s) = false := by
  rw [normKey, basename, replaceSeps, hasSep]
  rw [List.any_eq_false]
  intro c hc
  have hmem : c ∈ s.data.map sepFix := basenameChars_subset hc
  have hslash : c ≠ '/' := by
    intro hcontr
    exact slash_not_mem_basenameChars _ (hcontr ▸ hc)
  have hback : c ≠ '\\' := by
    rcases List.mem_map.mp hmem with ⟨c0, _, hc0⟩
    intro hcontr
    exact sepFix_ne_backslash c0 (hc0.trans hcontr)
  simp [hslash, hback]

/-! ### Helper lemmas: merge loop invariants -/

theorem merge_foldl_keys {V : Type} :
    ∀ (D : List (String × V)) (m : List (String × V)) (a p : Nat)
      (k : String),
      k ∈ keys (D.foldl mergeStep (m, a, p)).1 ↔ k ∈ keys m ∨ k ∈ keys D
  | [], m, a, p, k => by simp [keys]
  | kv :: rest, m, a, p, k => by
    rw [List.foldl_cons]
    by_cases h : kv.1 ∈ keys m
    · have hstep : mergeStep (m, a, p) kv = (m, a, p + 1) := by
        simp [mergeStep, h]
      rw [hstep, merge_foldl_keys rest m a (p + 1) k, mem_keys_cons]
      constructor
      · rintro (hm | hr)
        · exact Or.inl hm
        · exact Or.inr (Or.inr hr)
      · rintro (hm | hkv | hr)
        · exact Or.inl hm
        · exact Or.inl (hkv ▸ h)
        · exact Or.inr hr
    · have hstep : mergeStep (m, a, p) kv = (m ++ [kv], a + 1, p) := by
        simp [mergeStep, h]
      rw [hstep, merge_foldl_keys rest (m ++ [kv]) (a + 1) p k, keys_append,
        mem_keys_cons]
      simp only [List.mem_append, keys, List.map_cons, List.map_nil,
        List.mem_singleton]
      tauto
  termination_by D => D.length

theorem merge_foldl_prefix {V : Type} :
    ∀ (D : List (String × V)) (m : List (String × V)) (a p : Nat),
      ∃ t, (D.foldl mergeStep (m, a, p)).1 = m ++ t
  | [], m, a, p => ⟨[], by simp⟩
  | kv :: rest, m, a, p => by
    rw [List.foldl_cons]
    by_cases h : kv.1 ∈ keys m
    · have hstep : mergeStep (m, a, p) kv = (m, a, p + 1) := by
        simp [mergeStep, h]
      rw [hstep]
      exact merge_foldl_prefix rest m a (p + 1)
    · have hstep : mergeStep (m, a, p) kv = (m ++ [kv], a + 1, p) := by
        simp [mergeStep, h]
      rw [hstep]
      rcases merge_foldl_prefix rest (m ++ [kv]) (a + 1) p with ⟨t, ht⟩
      exact ⟨kv :: t, by rw [ht, List.append_assoc]; rfl⟩

theorem merge_foldl_counts {V : Type} :
    ∀ (D : List (String × V)) (m : List (String × V)) (a p : Nat),
      (D.foldl mergeStep (m, a, p)).2.1 + (D.foldl mergeStep (m, a, p)).2.2 =
        a + p + D.length
  | [], m, a, p => by simp
  | kv :: rest, m, a, p => by
    rw [List.foldl_cons]
    by_cases h : kv.1 ∈ keys m
    · have hstep : mergeStep (m, a, p) kv = (m, a, p + 1) := by
        simp [mergeStep, h]
      rw [hstep]
      have := merge_foldl_counts rest m a (p + 1)
      rw [this, List.length_cons]
      omega
    · have hstep : mergeStep (m, a, p) kv = (m ++ [kv], a + 1, p) := by
        simp [mergeStep, h]
      rw [hstep]
      have := merge_foldl_counts rest (m ++ [kv]) (a + 1) p
      rw [this, List.length_cons]
      omega

theorem merge_foldl_all_mem {V : Type} :
    ∀ (D : List (String × V)) (m : List (String × V)) (a p : Nat),
      (∀ kv ∈ D, kv.1 ∈ keys m) →
      D.foldl mergeStep (m, a, p) = (m, a, p + D.length)
  | [], m, a, p, _ => by simp
  | kv :: rest, m, a, p, h => by
    have hk : kv.1 ∈ keys m := h kv (List.mem_cons_self kv rest)
    have hstep : mergeStep (m, a, p) kv = (m, a, p + 1) := by
      simp [mergeStep, hk]
    rw [List.foldl_cons, hstep,
      merge_foldl_all_mem rest m a (p + 1)
        (fun x hx => h x (List.mem_cons_of_mem kv hx)),
      List.length_cons]
    have : p + 1 + rest.length = p + (rest.length + 1) := by omega
    rw [this]

/-! ### Claim theorems -/

/-- Claim C1: for every existing cache `E` and discovered entries `D`,
`merge_caches E D` returns a cache whose key set equals the union of the
keys of `E` and the discovered identifiers, and every key already in `E`
is mapped to exactly the value it had in `E` (the scan's boolean never
overwrites an existing value). -/
theorem merge_union_correct {V : Type} (E D : List (String × V)) :
    (∀ k, k ∈ keys (merge_caches E D).1 ↔ k ∈ keys E ∨ k ∈ keys D) ∧
    (∀ k, k ∈ keys E → lookup k (merge_caches E D).1 = lookup k E) := by
  constructor
  · intro k
    exact merge_foldl_keys D E 0 0 k
  · intro k hk
    rcases merge_foldl_prefix D E 0 0 with ⟨t, ht⟩
    calc lookup k (merge_caches E D).1
        = lookup k (E ++ t) := by rw [merge_caches, ht]
      _ = lookup k E := lookup_append_left t E k hk

theorem merge_union_correct_witness :
    (("jobA" : String) ∈ keys ([(("jobA" : String), true)] : List (String × Bool))) ∧
    lookup ("jobA")
        (merge_caches ([(("jobA" : String), true)] : List (String × Bool))
          ([(("jobC" : String), true)])).1 =
      lookup ("jobA") ([(("jobA" : String), true)] : List (String × Bool)) :=
  ⟨by decide, (merge_union_correct _ _).2 ("jobA") (by decide)⟩

/-- Claim C3: merging the same discovered set into the already-merged cache
a second time leaves the cache unchanged, adds nothing, and counts every
discovered identifier as already present. -/
theorem merge_idempotent {V : Type} (E D : List (String × V))
    (_hD : (keys D).Nodup) :
    merge_caches (merge_caches E D).1 D = ((merge_caches E D).1, 0, D.length) := by
  have hmem : ∀ kv ∈ D, kv.1 ∈ keys (merge_caches E D).1 := by
    intro kv hkv
    exact (merge_foldl_keys D E 0 0 kv.1).mpr
      (Or.inr (List.mem_map_of_mem Prod.fst hkv))
  calc merge_caches (merge_caches E D).1 D
      = D.foldl mergeStep ((merge_caches E D).1, 0, 0) := rfl
    _ = ((merge_caches E D).1, 0, 0 + D.length) :=
        merge_foldl_all_mem D _ 0 0 hmem
    _ = ((merge_caches E D).1, 0, D.length) := by rw [Nat.zero_add]

theorem merge_idempotent_witness :
    (keys ([(("jobA" : String), true), (("jobC" : String), true)] :
        List (String × Bool))).Nodup ∧
    merge_caches
        (merge_caches ([(("jobA" : String), true)] : List (String × Bool))
          ([(("jobA" : String), true), (("jobC" : String), true)])).1
        ([(("jobA" : String), true), (("jobC" : String), true)]) =
      ((merge_caches ([(("jobA" : String), true)] : List (String × Bool))
          ([(("jobA" : String), true), (("jobC" : String), true)])).1, 0, 2) :=
  ⟨by decide, merge_idempotent _ _ (by decide)⟩

/-- Claim C4: after any merge, `added + already_exists` equals the number
of discovered identifiers (the discovered entries have distinct keys, being
a dict). -/
theorem merge_counting {V : Type} (E D : List (String × V))
    (_hD : (keys D).Nodup) :
    (merge_caches E D).2.1 + (merge_caches E D).2.2 = D.length := by
  have h2 : (merge_caches E D).2.1 + (merge_caches E D).2.2 =
      0 + 0 + D.length := merge_foldl_counts D E 0 0
  omega

theorem merge_counting_witness :
    (keys ([(("jobA" : String), true), (("jobC" : String), true)] :
        List (String × Bool))).Nodup ∧
    (merge_caches ([(("jobA" : String), true)] : List (String × Bool))
          ([(("jobA" : String), true), (("jobC" : String), true)])).2.1 +
      (merge_caches ([(("jobA" : String), true)] : List (String × Bool))
          ([(("jobA" : String), true), (("jobC" : String), true)])).2.2 = 2 :=
  ⟨by decide, merge_counting _ _ (by decide)⟩

/-- Claim C2: for every raw persisted mapping, every key of the normalized
cache contains no path separator; moreover every raw key that contains a
separator is itself absent from the normalized cache, while its basename
(after rewriting backslashes) is present. -/
theorem load_keys_have_no_separators {V : Type} (raw : List (String × V)) :
    (∀ key ∈ keys (normalize_cache raw), hasSep key = false) ∧
    (∀ k v, (k, v) ∈ raw → hasSep k = true →
      k ∉ keys (normalize_cache raw) ∧
      normKey k ∈ keys (normalize_cache raw)) := by
  have hall : ∀ key ∈ keys (normalize_cache raw), hasSep key = false := by
    intro key hkey
    rcases (mem_keys_normalize_iff raw key).mp hkey with ⟨kv, _, hnorm⟩
    rw [← hnorm]
    exact hasSep_normKey kv.1
  refine ⟨hall, fun k v hk hsep => ⟨?_, ?_⟩⟩
  · intro hmem
    have hfalse := hall k hmem
    rw [hsep] at hfalse
    exact Bool.noConfusion hfalse
  · exact (mem_keys_normalize_iff raw (normKey k)).mpr ⟨(k, v), hk, rfl⟩

theorem load_keys_have_no_separators_witness :
    ((("a/b" : String), true) ∈ ([(("a/b" : String), true)] : List (String × Bool)) ∧
      hasSep ("a/b") = true) ∧
    (("a/b" : String) ∉ keys (normalize_cache ([(("a/b" : String), true)] : List (String × Bool))) ∧
      normKey ("a/b") ∈ keys (normalize_cache ([(("a/b" : String), true)] : List (String × Bool)))) :=
  ⟨⟨by decide, by decide⟩,
    (load_keys_have_no_separators _).2 ("a/b") true (by decide) (by decide)⟩

/-- Claim C5: the normalized cache maps each basename to the value of the
last raw entry (in iteration order) whose key normalizes to that basename —
when several raw keys collide on one basename, the later entry silently
wins. -/
theorem load_collision_last_write_wins (V : Type) (raw : List (String × V))
    (b : String) :
    lookup b (normalize_cache raw) =
      (raw.reverse.find? (fun kv => normKey kv.1 == b)).map Prod.snd :=
  lookup_normalize raw b

/-- Claim C6: a missing cache file yields an empty cache and no warning; an
unparsable one yields an empty cache with the non-fatal warning printed.
In both cases `load_completion_cache` returns normally (`.ok`) instead of
exiting the process. -/
theorem load_graceful_degradation (V : Type) :
    load_completion_cache (CacheFileState.missing : CacheFileState V) =
        .ok ([], false) ∧
    load_completion_cache (CacheFileState.unparsable : CacheFileState V) =
        .ok ([], true) :=
  ⟨rfl, rfl⟩

/-- Claim C10: a raw key ending in a path separator normalizes to the empty
string, so the normalized cache gains an entry under the empty-string key
(the basename step keeps the text after the last separator even when it is
empty). -/
theorem trailing_separator_normalizes_to_empty {V : Type}
    (raw : List (String × V)) (k : String) (v : V) (hk : (k, v) ∈ raw)
    (hend : endsWithSep k = true) :
    normKey k = "" ∧ "" ∈ keys (normalize_cache raw) := by
  have hnorm : normKey k = "" := by
    rw [endsWithSep] at hend
    cases hlast : k.data.getLast? with
    | none => rw [hlast] at hend; simp at hend
    | some c =>
      rw [hlast] at hend
      rcases List.getLast?_eq_some_iff.mp hlast with ⟨ys, hys⟩
      have hc : sepFix c = '/' := by
        have hor : c = '/' ∨ c = '\\' := by simpa using hend
        rcases hor with h | h
        · rw [sepFix, h]
          decide
        · rw [sepFix, if_pos h]
      rw [normKey, basename, replaceSeps, hys, List.map_append,
        List.map_singleton, hc, basenameChars_append_slash]
  exact ⟨hnorm, (mem_keys_normalize_iff raw "").mpr ⟨(k, v), hk, hnorm⟩⟩

theorem trailing_separator_normalizes_to_empty_witness :
    ((("a/jobA/" : String), true) ∈
        ([(("a/jobA/" : String), true)] : List (String × Bool)) ∧
      endsWithSep ("a/jobA/") = true) ∧
    (normKey ("a/jobA/") = "" ∧
      "" ∈ keys (normalize_cache
        ([(("a/jobA/" : String), true)] : List (String × Bool)))) :=
  ⟨⟨by decide, by decide⟩,
    trailing_separator_normalizes_to_empty _ ("a/jobA/") true
      (by decide) (by decide)⟩

/-! ### Helper lemmas: sorted serialization -/

theorem keyLe_trans : ∀ (a b c : String × Bool),
    keyLe a b = true → keyLe b c = true → keyLe a c = true := by
  intro a b c hab hbc
  simp only [keyLe, decide_eq_true_eq] at *
  exact le_trans hab hbc

theorem keyLe_total : ∀ (a b : String × Bool),
    (keyLe a b || keyLe b a) = true := by
  intro a b
  simp only [keyLe, Bool.or_eq_true, decide_eq_true_eq]
  exact le_total a.1 b.1

theorem sortEntries_sorted (c : List (String × Bool)) :
    (sortEntries c).Pairwise (fun a b => a.1 ≤ b.1) := by
  have h := List.sorted_mergeSort keyLe_trans keyLe_total c
  exact h.imp (fun hab => by simpa [keyLe, decide_eq_true_eq] using hab)

theorem sortEntries_eq_of_perm {c₁ c₂ : List (String × Bool)}
    (hperm : c₁.Perm c₂) (hnd : (keys c₁).Nodup) :
    sortEntries c₁ = sortEntries c₂ := by
  have hp : (sortEntries c₁).Perm (sortEntries c₂) :=
    ((List.mergeSort_perm c₁ keyLe).trans hperm).trans
      (List.mergeSort_perm c₂ keyLe).symm
  have hnd₁ : (keys (sortEntries c₁)).Nodup := by
    have hkp : (keys (sortEntries c₁)).Perm (keys c₁) :=
      (List.mergeSort_perm c₁ keyLe).map Prod.fst
    exact hkp.nodup_iff.mpr hnd
  have hnd₂ : (keys (sortEntries c₂)).Nodup := by
    have hkp : (keys (sortEntries c₁)).Perm (keys (sortEntries c₂)) :=
      hp.map Prod.fst
    exact hkp.nodup_iff.mp hnd₁
  have hstrict : ∀ (l : List (String × Bool)),
      l.Pairwise (fun a b => a.1 ≤ b.1) → (keys l).Nodup →
      l.Pairwise (fun a b => a.1 < b.1) := by
    intro l hle hnd'
    have hne : l.Pairwise (fun a b => a.1 ≠ b.1) := List.pairwise_map.mp hnd'
    exact (hle.and hne).imp (fun h => lt_of_le_of_ne h.1 h.2)
  haveI : IsAntisymm (String × Bool) (fun a b => a.1 < b.1) :=
    ⟨fun a b hab hba => absurd hba (lt_asymm hab)⟩
  exact List.eq_of_perm_of_sorted hp
    (hstrict _ (sortEntries_sorted c₁) hnd₁)
    (hstrict _ (sortEntries_sorted c₂) hnd₂)

/-- Claim C9: caches with the same logical content serialize to the same
bytes, entries are written with keys in sorted order, and a failed write
exits with status 1. -/
theorem save_deterministic (c₁ c₂ : List (String × Bool)) (w : Bool)
    (hperm : c₁.Perm c₂) (hnd : (keys c₁).Nodup) :
    save_completion_cache w c₁ = save_completion_cache w c₂ ∧
    (sortEntries c₁).Pairwise (fun a b => a.1 ≤ b.1) ∧
    (w = false → save_completion_cache w c₁ = .error 1) := by
  have heq : sortEntries c₁ = sortEntries c₂ := sortEntries_eq_of_perm hperm hnd
  refine ⟨?_, sortEntries_sorted c₁, ?_⟩
  · simp only [save_completion_cache, serializeCache, heq]
  · intro hw
    simp [save_completion_cache, hw]

theorem save_deterministic_witness :
    (([(("b" : String), true), (("a" : String), false)] :
        List (String × Bool)).Perm
        ([(("a" : String), false), (("b" : String), true)]) ∧
      (keys ([(("b" : String), true), (("a" : String), false)] :
        List (String × Bool))).Nodup) ∧
    (save_completion_cache true ([(("b" : String), true), (("a" : String), false)]) =
        save_completion_cache true ([(("a" : String), false), (("b" : String), true)]) ∧
      (sortEntries ([(("b" : String), true), (("a" : String), false)])).Pairwise
        (fun a b => a.1 ≤ b.1) ∧
      ((true : Bool) = false →
        save_completion_cache true
          ([(("b" : String), true), (("a" : String), false)]) = .error 1)) :=
  ⟨⟨by decide, by decide⟩, save_deterministic _ _ true (by decide) (by decide)⟩

/-- Claim C7: in a run that exits successfully, the cache file is written
exactly when the normalized existing cache or the scan's discovered set is
non-empty — in particular it is written when nothing new was discovered but
the normalized cache is non-empty, and skipped only when both are empty. -/
theorem main_saves_iff_nonempty (fs : FS) (existing : List (String × Bool))
    (w : Bool) (completed : List (String × Bool))
    (hload : load_completion_cache fs.cacheState = .ok (existing, w))
    (hscan : find_completed_jobs fs = .ok completed)
    (hexit : (mainRun fs).exitCode = 0) :
    ((mainRun fs).saveInvoked = true ↔ (existing ≠ [] ∨ completed ≠ [])) := by
  simp only [mainRun, hload, hscan] at hexit ⊢
  cases completed with
  | nil =>
    cases existing with
    | nil => simp
    | cons e es =>
      cases hw : fs.writeOk with
      | false =>
        exfalso
        simp [save_completion_cache, hw] at hexit
      | true => simp [save_completion_cache, hw]
  | cons c cs =>
    cases hw : fs.writeOk with
    | false =>
      exfalso
      simp [save_completion_cache, hw] at hexit
    | true => simp [save_completion_cache, hw]

theorem main_saves_iff_nonempty_witness :
    (load_completion_cache fsScanEx.cacheState = .ok ([], false) ∧
      find_completed_jobs fsScanEx = .ok ([(("jobA" : String), true)]) ∧
      (mainRun fsScanEx).exitCode = 0) ∧
    ((mainRun fsScanEx).saveInvoked = true ↔
      (([] : List (String × Bool)) ≠ [] ∨
        ([(("jobA" : String), true)] : List (String × Bool)) ≠ [])) :=
  ⟨⟨rfl, rfl, by decide⟩,
    main_saves_iff_nonempty fsScanEx [] false _ rfl rfl (by decide)⟩

/-- Claim C8: when the root output directory does not exist, or exists but
cannot be listed, the scan calls `sys.exit(1)`, so the process exits with
status 1 and the cache file is never written or modified. -/
theorem missing_root_fatal_no_write (fs : FS)
    (h : fs.rootExists = false ∨ fs.scanOk = false) :
    find_completed_jobs fs = .error 1 ∧ mainRun fs = ⟨1, false⟩ := by
  have hfind : find_completed_jobs fs = .error 1 := by
    rcases h with h | h
    · rw [find_completed_jobs, h]
      simp
    · rw [find_completed_jobs, h]
      by_cases hr : fs.rootExists = false <;> simp [hr]
  refine ⟨hfind, ?_⟩
  cases hst : fs.cacheState with
  | missing => simp [mainRun, hst, load_completion_cache, hfind]
  | unparsable => simp [mainRun, hst, load_completion_cache, hfind]
  | parsed raw => simp [mainRun, hst, load_completion_cache, hfind]

theorem missing_root_fatal_no_write_witness :
    ((fsNoRootEx.rootExists = false ∨ fsNoRootEx.scanOk = false) ∧
      (find_completed_jobs fsNoRootEx = .error 1 ∧
        mainRun fsNoRootEx = ⟨1, false⟩)) ∧
    ((fsScanFailEx.rootExists = false ∨ fsScanFailEx.scanOk = false) ∧
      (find_completed_jobs fsScanFailEx = .error 1 ∧
        mainRun fsScanFailEx = ⟨1, false⟩)) :=
  ⟨⟨Or.inl rfl, missing_root_fatal_no_write fsNoRootEx (Or.inl rfl)⟩,
    ⟨Or.inr rfl, missing_root_fatal_no_write fsScanFailEx (Or.inr rfl)⟩⟩

end MigrateDone
